import Mathlib

/-!
Verification of the address-space, MAC-range, spoof-table and scheduling
core of `arpopulate.py`.  The Python code is shallowly embedded: machine
integers become `Nat`, Python lists become `List`, the mutating loops
become fueled state-passing functions returning `Option`/`Except`
(`none`/`error` models a raised exception or exhausted fuel), and the
random source becomes an explicit stream of naturals.
-/

namespace Arpopulate

/-- An IP network as produced by `ipaddress.ip_network`: a prefix length
`p` and a network address `addr`, over an address width `W`
(32 for IPv4, 128 for IPv6) that is passed explicitly to operations. -/
structure Net where
  p : Nat
  addr : Nat
  deriving DecidableEq, Repr

/-- Python `num_addresses` of a network: `2 ^ (W - prefixlen)`. -/
def Net.size (W : Nat) (n : Net) : Nat := 2 ^ (W - n.p)

/-- Python `broadcast_address` of a network, as an integer. -/
def Net.bcast (W : Nat) (n : Net) : Nat := n.addr + Net.size W n - 1

/-- Python `a.subnet_of(b)` from the Python `ipaddress` module:
`b.network_address <= a.network_address and a.broadcast_address <= b.broadcast_address`. -/
def subnet_of (W : Nat) (a b : Net) : Bool :=
  decide (b.addr ≤ a.addr) && decide (Net.bcast W a ≤ Net.bcast W b)

/-- The integer addresses covered by a network. -/
def Net.covers (W : Nat) (n : Net) (x : Nat) : Prop :=
  n.addr ≤ x ∧ x < n.addr + Net.size W n

instance (W : Nat) (n : Net) (x : Nat) : Decidable (Net.covers W n x) := by
  unfold Net.covers; infer_instance

/-- Validity guaranteed by `ip_network`: prefix within the address width,
network address in range and aligned on the prefix boundary. -/
def Net.valid (W : Nat) (n : Net) : Prop :=
  n.p ≤ W ∧ n.addr < 2 ^ W ∧ 2 ^ (W - n.p) ∣ n.addr

instance (W : Nat) (n : Net) : Decidable (Net.valid W n) := by
  unfold Net.valid; infer_instance

/-- An address covered by some member of a list of networks. -/
def coveredBy (W : Nat) (l : List Net) (x : Nat) : Prop :=
  ∃ n, n ∈ l ∧ Net.covers W n x

instance (W : Nat) (l : List Net) (x : Nat) : Decidable (coveredBy W l x) := by
  unfold coveredBy; infer_instance

namespace IPNetworks

/-- Python `IPNetworks.subnets_of`: whether some member of `self` is a subnet of
(or equal to) some member of `others`. -/
def subnets_of (W : Nat) (self others : List Net) : Bool :=
  self.any fun s => others.any fun o => subnet_of W s o

/-- Python `IPNetworks.len`: the sum of `num_addresses` over the members. -/
def len (W : Nat) (self : List Net) : Nat :=
  (self.map fun n => Net.size W n).sum

/-- Python `IPNetworks.rand`, with the result of `randrange(0, self.len())` passed
in as `offset`: walk the members in order, subtracting the length of each
`num_addresses` until the offset falls inside a member, then return
`network_address + offset`.  Python returns `None` when the loop runs off
the end (offset too large). -/
def rand (W : Nat) : List Net → Nat → Option Nat
  | [], _ => none
  | n :: ns, offset =>
    if Net.size W n ≤ offset then rand W ns (offset - Net.size W n)
    else some (n.addr + offset)

end IPNetworks

/-- One step of the CPython `address_exclude` generator, fueled.  At each
level the current network `s` (initially `self`) is split into its two
halves; the sibling of the half containing `other` is yielded and the
walk descends into the half containing `other`, stopping when the half
equals `other`.  `none` models the `AssertionError` of the generator
(unreachable for valid aligned networks) or exhausted fuel. -/
def addrExclGo (W : Nat) : Nat → Net → Net → Option (List Net)
  | 0, _, _ => none
  | fuel + 1, s, o =>
    if s = o then some []
    else if subnet_of W o ⟨s.p + 1, s.addr⟩ then
      (addrExclGo W fuel ⟨s.p + 1, s.addr⟩ o).map
        fun l => (⟨s.p + 1, s.addr + 2 ^ (W - (s.p + 1))⟩ : Net) :: l
    else if subnet_of W o ⟨s.p + 1, s.addr + 2 ^ (W - (s.p + 1))⟩ then
      (addrExclGo W fuel ⟨s.p + 1, s.addr + 2 ^ (W - (s.p + 1))⟩ o).map
        fun l => (⟨s.p + 1, s.addr⟩ : Net) :: l
    else none

/-- Python `s.address_exclude(o)`: CPython first raises `ValueError` unless
`o.subnet_of(s)` (modelled by `none`; the caller in `arpopulate.py` only
invokes it under that guard), then runs the descending split.  Fuel
`W + 1` suffices for valid networks since the prefix grows by one per
level and never passes `W`. -/
def address_exclude (W : Nat) (s o : Net) : Option (List Net) :=
  if subnet_of W o s then addrExclGo W (W + 1) s o else none

/-- Python `list.remove`: drop the first occurrence, `ValueError`
(modelled by `none`) when the value is absent. -/
def removeFirst (l : List Net) (x : Net) : Option (List Net) :=
  if x ∈ l then some (l.erase x) else none

/-- The inner `for o in others` loop of `IPNetworks.addresses_exclude`,
acting on the live list `self` with the loop variable `s` fixed:
`if o.subnet_of(s): self.remove(s); self.extend(s.address_exclude(o))`
`elif s.subnet_of(o): self.remove(s)`. -/
def innerLoop (W : Nat) (s : Net) : List Net → List Net → Option (List Net)
  | [], self => some self
  | o :: os, self =>
    if subnet_of W o s then
      match removeFirst self s with
      | none => none
      | some self1 =>
        match address_exclude W s o with
        | none => none
        | some pieces => innerLoop W s os (self1 ++ pieces)
    else if subnet_of W s o then
      match removeFirst self s with
      | none => none
      | some self1 => innerLoop W s os self1
    else innerLoop W s os self

/-- The outer `for s in self` loop of `addresses_exclude`.  Python list
iteration is by index over the live, mutating list: elements appended by
`extend` are visited in the same pass and removals shift later elements
down, exactly as modelled here.  Fueled; `none` is exhausted fuel or a
propagated exception. -/
def outerPassGo (W : Nat) : Nat → Nat → List Net → List Net → Option (List Net)
  | 0, _, _, _ => none
  | fuel + 1, i, self, others =>
    if h : i < self.length then
      match innerLoop W self[i] others self with
      | none => none
      | some self1 => outerPassGo W fuel (i + 1) self1 others
    else some self

namespace IPNetworks

/-- Python `IPNetworks.addresses_exclude`: `while self.subnets_of(others):` run
one full pass of the pair scan.  Fueled; `some` means the Python loop
completed. -/
def addresses_exclude (W : Nat) : Nat → List Net → List Net → Option (List Net)
  | 0, _, _ => none
  | fuel + 1, self, others =>
    if subnets_of W self others then
      match outerPassGo W fuel 0 self others with
      | none => none
      | some self1 => addresses_exclude W fuel self1 others
    else some self

end IPNetworks

/-- Invariant carried through the exclusion: every member is valid and
covers only addresses covered by the original list `S0`. -/
def InvQ (W : Nat) (S0 l : List Net) : Prop :=
  ∀ n ∈ l, Net.valid W n ∧ ∀ x, Net.covers W n x → coveredBy W S0 x

/-- A contiguous MAC block: `MACRange.__init__` stores the mask and the
base MAC with its low `48 - mask` bits cleared. -/
structure MACRange where
  mask : Nat
  mac : Nat
  deriving DecidableEq, Repr

/-- Python `MACRange.__len__`: `1 << (48 - self.mask)`. -/
def MACRange.length (r : MACRange) : Nat := 2 ^ (48 - r.mask)

namespace MACRanges

/-- Python `MACRanges.len`: total length over the member ranges. -/
def len (rs : List MACRange) : Nat := (rs.map MACRange.length).sum

/-- Python `MACRanges.rand`, with the result of `randrange(0, self.len())`
passed in as `offset`: walk members in order, subtracting lengths, and
return `member.mac + offset` for the member the offset lands in.
Python returns `None` when the loop runs off the end. -/
def rand : List MACRange → Nat → Option Nat
  | [], _ => none
  | r :: rs, offset =>
    if MACRange.length r ≤ offset then rand rs (offset - MACRange.length r)
    else some (r.mac + offset)

end MACRanges

/-- A Python number as produced by the CLI layer: `--count` values from
the command line are `float` (argparse `type=float`), the default `10`
is an `int`. -/
inductive PyNum where
  | int (n : Int)
  | float (q : ℚ)
  deriving DecidableEq, Repr

/-- Numeric value of a Python number (CPython compares `int` and `float`
exactly). -/
def PyNum.val : PyNum → ℚ
  | .int n => (n : ℚ)
  | .float q => q

/-- Python `min(a, b)`: returns `b` when `b < a`, else `a` — the type of
the returned operand is preserved. -/
def pyMin (a b : PyNum) : PyNum := if PyNum.val b < PyNum.val a then b else a

/-- Python `range(x)` used as a loop bound: an `int` gives that many
iterations (none when negative); a `float` raises `TypeError`, modelled
as `error`. -/
def rangeLen : PyNum → Except Unit Nat
  | .int n => .ok n.toNat
  | .float _ => .error ()

/-- The loop bound of the spoof-table build:
`range(min(args.count, spoofs.len()))`. -/
def effCount (count : PyNum) (poolLen : Nat) : Except Unit Nat :=
  rangeLen (pyMin count (.int (poolLen : Int)))

/-- Python dict assignment `d[k] = v`: overwrite in place when the key
exists (keeping its position), else append. -/
def dictInsert : List (Nat × Nat) → Nat → Nat → List (Nat × Nat)
  | [], k, v => [(k, v)]
  | (k1, v1) :: rest, k, v =>
    if k1 = k then (k, v) :: rest else (k1, v1) :: dictInsert rest k v

/-- The spoof-table build loop with the random source as a stream `rng`
(the `j`-th call of `randrange` reads `rng j`, reduced modulo the live
bound): `address = spoofs.rand(); spoofs.addresses_exclude([ip_network(address)]);`
`spoofed[address] = spoof_macs.rand()`, repeated `k` times.  `none`
models a raised exception (`randrange(0, 0)`) or exhausted fuel. -/
def buildGo (W fuel : Nat) (rng : Nat → Nat) :
    Nat → Nat → List Net → List (Nat × Nat) → List MACRange →
    Option (List Net × List (Nat × Nat))
  | _, 0, spoofs, table, _ => some (spoofs, table)
  | j, k + 1, spoofs, table, macs =>
    if IPNetworks.len W spoofs = 0 then none
    else
      match IPNetworks.rand W spoofs (rng j % IPNetworks.len W spoofs) with
      | none => none
      | some address =>
        match IPNetworks.addresses_exclude W fuel spoofs [⟨W, address⟩] with
        | none => none
        | some spoofs1 =>
          if MACRanges.len macs = 0 then none
          else
            match MACRanges.rand macs (rng (j + 1) % MACRanges.len macs) with
            | none => none
            | some mac =>
              buildGo W fuel rng (j + 2) k spoofs1 (dictInsert table address mac) macs

instance {ε α : Type} [DecidableEq ε] [DecidableEq α] : DecidableEq (Except ε α) :=
  fun a b =>
  match a, b with
  | .error u, .error v =>
    if h : u = v then isTrue (by rw [h]) else isFalse (fun hc => by cases hc; exact h rfl)
  | .ok u, .ok v =>
    if h : u = v then isTrue (by rw [h]) else isFalse (fun hc => by cases hc; exact h rfl)
  | .error _, .ok _ => isFalse (fun hc => by cases hc)
  | .ok _, .error _ => isFalse (fun hc => by cases hc)

/-- Python `hosts()`: both `IPv4Network.__init__` and
`IPv6Network.__init__` install the same shortcuts — the single address
for a `/W`, the whole range for a `/W-1` (RFC 3021 / point-to-point) —
and otherwise the families differ: `IPv4Network.hosts()` yields
`range(network + 1, broadcast)` (both network and broadcast excluded),
while IPv6 (`W = 128`) uses the `_BaseNetwork.hosts()` generator
`range(network + 1, broadcast + 1)`, excluding only the network
(Subnet-Router anycast) address and keeping the top address. -/
def hosts (W : Nat) (n : Net) : List Nat :=
  if n.p = W then [n.addr]
  else if n.p + 1 = W then [n.addr, n.addr + 1]
  else if W = 32 then List.range' (n.addr + 1) (Net.size W n - 2)
  else List.range' (n.addr + 1) (Net.size W n - 1)

/-- The transport calls of one scheduler pass, in emission order:
`for address, mac in spoofed.items(): for target in targets:`
`for host in target.hosts(): spoof(host, address, mac)`. -/
def passEmits (W : Nat) (table : List (Nat × Nat)) (targets : List Net) :
    List (Nat × Nat × Nat) :=
  table.flatMap fun am => targets.flatMap fun t =>
    (hosts W t).map fun h => (h, am.1, am.2)

/-- The (entry, target, host) triples enumerated by one pass, in the
same nested order. -/
def tripleList (W : Nat) (table : List (Nat × Nat)) (targets : List Net) :
    List ((Nat × Nat) × Net × Nat) :=
  table.flatMap fun am => targets.flatMap fun t =>
    (hosts W t).map fun h => (am, t, h)

/-- Observable scheduler events: one full pass, or a sleep of `k`
seconds. -/
inductive Ev where
  | pass
  | sleepFor (k : Int)
  deriving DecidableEq, Repr

/-- Scheduler loop status after a bounded number of iterations:
still looping, returned, or aborted by an exception
(`time.sleep` raises `ValueError` for a negative argument). -/
inductive SchedStatus where
  | running
  | done
  | failed
  deriving DecidableEq, Repr

/-- The `while True:` scheduling loop: one pass per iteration, then
`if args.seconds:` (Python truthiness: `None` and `0` are falsy) sleep
and continue, else break.  Fueled by the number of iterations
observed. -/
def schedTrace (seconds : Option Int) : Nat → List Ev × SchedStatus
  | 0 => ([], .running)
  | fuel + 1 =>
    match seconds with
    | none => ([Ev.pass], .done)
    | some s =>
      if s = 0 then ([Ev.pass], .done)
      else if s < 0 then ([Ev.pass], .failed)
      else
        match schedTrace seconds fuel with
        | (evs, st) => (Ev.pass :: Ev.sleepFor s :: evs, st)

/-- The character class `[0-9a-fA-F]` of the MAC regexes, by code
point (48-57 digits, 97-102 lowercase, 65-70 uppercase). -/
def isHexChar (c : Char) : Bool :=
  (48 ≤ c.toNat && c.toNat ≤ 57) || (97 ≤ c.toNat && c.toNat ≤ 102)
    || (65 ≤ c.toNat && c.toNat ≤ 70)

/-- The class `\d` restricted to ASCII digits. -/
def isDigitChar (c : Char) : Bool := 48 ≤ c.toNat && c.toNat ≤ 57

/-- The separator class `[:.-]` (code points 58, 46, 45). -/
def isSepChar (c : Char) : Bool :=
  c.toNat == 58 || c.toNat == 46 || c.toNat == 45

/-- Hex digit value as computed by `int(_, 16)` on the classes above. -/
def hexDigitVal (c : Char) : Nat :=
  if c.toNat ≤ 57 then c.toNat - 48
  else if 97 ≤ c.toNat then c.toNat - 87
  else c.toNat - 55

/-- Python `int(l, 16)` for a string of hex digits. -/
def hexVal (l : List Char) : Nat := l.foldl (fun a c => 16 * a + hexDigitVal c) 0

/-- Python `int(l)` for a string of decimal digits. -/
def decVal (l : List Char) : Nat := l.foldl (fun a c => 10 * a + (c.toNat - 48)) 0

/-- Python `re.split` with a single-character delimiter class `p`: split at
every delimiter character, producing empty strings for leading,
trailing or consecutive delimiters. -/
def splitOnPred (p : Char → Bool) : List Char → List (List Char)
  | [] => [[]]
  | c :: cs =>
    if p c then [] :: splitOnPred p cs
    else
      match splitOnPred p cs with
      | [] => [[c]]
      | g :: gs => (c :: g) :: gs

/-- Python `re.split(r"[^0-9a-fA-F]", _)` as used by `MAC.parse`. -/
def splitNonHex (l : List Char) : List (List Char) :=
  splitOnPred (fun c => !isHexChar c) l

/-- The colon-groups of a rendered MAC, for stating the canonical-form
claim. -/
def splitColon (l : List Char) : List (List Char) :=
  splitOnPred (fun c => c.toNat == 58) l

/-- Python `int.from_bytes(_, byteorder="big")` over a list of byte values. -/
def fromBytesBE (l : List Nat) : Nat := l.foldl (fun a b => 256 * a + b) 0

/-- Python `int.to_bytes(length=k, byteorder="big")` (as byte values; Python
raises `OverflowError` above `2^(8k) - 1`, so calls are made with the
value in range). -/
def toBytesBE : Nat → Nat → List Nat
  | 0, _ => []
  | k + 1, m => toBytesBE k (m / 256) ++ [m % 256]

namespace MAC

/-- Python `MAC.parse`: split the text on every non-hex character, convert each
part with `int(_, 16)` (`ValueError` on an empty part, modelled `none`),
and recombine with `int.from_bytes` (which rejects values above 255). -/
def parse (l : List Char) : Option Nat :=
  if (splitNonHex l).all fun pt => !pt.isEmpty then
    if (splitNonHex l).all fun pt => hexVal pt < 256 then
      some (fromBytesBE ((splitNonHex l).map hexVal))
    else none
  else none

/-- The hex digit characters emitted by the Python `format(_, "x")`:
lowercase, code points 48-57 and 97-102. -/
def hexDigitChar (n : Nat) : Char :=
  Char.ofNat (if n < 10 then 48 + n else 87 + n)

/-- Minimal hex rendering, fueled (structural recursion; any fuel at or
above the value itself is sufficient since the value shrinks by a factor
of 16 per step). -/
def toHexGo : Nat → Nat → List Char
  | 0, n => [hexDigitChar n]
  | fuel + 1, n =>
    if n < 16 then [hexDigitChar n]
    else toHexGo fuel (n / 16) ++ [hexDigitChar (n % 16)]

/-- Minimal lowercase hex rendering of a byte — `format(part, "x")`,
which does NOT zero-pad. -/
def toHexChars (n : Nat) : List Char := toHexGo n n

/-- Python `":".join`. -/
def joinColon : List (List Char) → List Char
  | [] => []
  | [pt] => pt
  | pt :: pts => pt ++ ':' :: joinColon pts

/-- Python `MAC.__str__`: the six big-endian bytes, each rendered with
`format(_, "x")`, joined with colons. -/
def str (m : Nat) : List Char := joinColon ((toBytesBE 6 m).map toHexChars)

end MAC

/-- Lowercase-hex character predicate, for the canonical-form claim. -/
def isLowerHex (c : Char) : Bool :=
  (48 ≤ c.toNat && c.toNat ≤ 57) || (97 ≤ c.toNat && c.toNat ≤ 102)

/-- The exceptions raised by `MACRange.__init__`: `AttributeError` when
the regex does not match (`search` returns `None` and `.group` is called
on it), `TypeError` when the optional mask group is absent
(`int(None)`), `ValueError` from a negative shift count when the mask
exceeds 48 (and, nominally, from `int(_, 16)`/`from_bytes`, unreachable
for regex-matched text). -/
inductive ParseErr where
  | attrError
  | typeError
  | valueError
  deriving DecidableEq, Repr

/-- Match `[0-9a-fA-F]{2}`, returning the pair and the remainder. -/
def matchHexPair : List Char → Option (List Char × List Char)
  | a :: b :: rest =>
    if isHexChar a && isHexChar b then some ([a, b], rest) else none
  | _ => none

/-- Match one `[:.-]` separator. -/
def matchSep : List Char → Option (Char × List Char)
  | c :: rest => if isSepChar c then some (c, rest) else none
  | [] => none

/-- Match `(?:[0-9a-fA-F]{2}[:.-]){k}[0-9a-fA-F]{2}`, returning the
matched characters and the remainder.  The classes involved are
disjoint, so this deterministic scan is the only parse of the regex. -/
def matchBody : Nat → List Char → Option (List Char × List Char)
  | 0, l => matchHexPair l
  | k + 1, l =>
    match matchHexPair l with
    | none => none
    | some (pr, rest) =>
      match matchSep rest with
      | none => none
      | some (d, rest1) =>
        match matchBody k rest1 with
        | none => none
        | some (tail, rest2) => some (pr ++ d :: tail, rest2)

/-- Python `search(r"^(?P<mac>(?:[0-9a-fA-F]{2}[:.-]){5}[0-9a-fA-F]{2})(/(?P<mask>\d+))?$", _)`
(over ASCII text): the `mac` group and, when present, the `mask` digit
group. -/
def regexMatch (l : List Char) : Option (List Char × Option (List Char)) :=
  match matchBody 5 l with
  | none => none
  | some (macChars, rest) =>
    match rest with
    | [] => some (macChars, none)
    | '/' :: ds =>
      if !ds.isEmpty && ds.all isDigitChar then some (macChars, some ds)
      else none
    | _ => none

/-- Python `MACRange.__init__(mac)`: regex match (`AttributeError` on failure),
`int` of the mask group (`TypeError` when absent), `MAC.parse` of the
mac group, then `self.mac &= ~((1 << (48 - mask)) - 1)` — a `ValueError`
(negative shift) when the mask exceeds 48, otherwise the base with its
low bits cleared. -/
def MACRange.ofText (l : List Char) : Except ParseErr MACRange :=
  match regexMatch l with
  | none => Except.error ParseErr.attrError
  | some (macChars, maskOpt) =>
    match maskOpt with
    | none => Except.error ParseErr.typeError
    | some ds =>
      match MAC.parse macChars with
      | none => Except.error ParseErr.valueError
      | some mac =>
        if 48 < decVal ds then Except.error ParseErr.valueError
        else Except.ok ⟨decVal ds, mac / 2 ^ (48 - decVal ds) * 2 ^ (48 - decVal ds)⟩

/-- The list comprehension
`MACRanges([MACRange(m) for m in args.mac])`: first raised exception
propagates. -/
def parseAll : List (List Char) → Except ParseErr (List MACRange)
  | [] => Except.ok []
  | s :: ss =>
    match MACRange.ofText s with
    | .error e => Except.error e
    | .ok r =>
      match parseAll ss with
      | .error e => Except.error e
      | .ok rs => Except.ok (r :: rs)

/-- Abnormal terminations of a program run. -/
inductive RunErr where
  | parse (e : ParseErr)
  | typeErr
  | valueErr
  | fuelOut
  deriving DecidableEq, Repr

/-- The scheduling loop of `__main__`, emitting the transport calls of
each pass (`spoof(host, address, mac)` triples, in order). -/
def schedEmitGo (W : Nat) (table : List (Nat × Nat)) (targets : List Net)
    (seconds : Option Int) : Nat → List (Nat × Nat × Nat) × Option RunErr
  | 0 => ([], some RunErr.fuelOut)
  | fuel + 1 =>
    match seconds with
    | none => (passEmits W table targets, none)
    | some s =>
      if s = 0 then (passEmits W table targets, none)
      else if s < 0 then (passEmits W table targets, some RunErr.valueErr)
      else
        match schedEmitGo W table targets seconds fuel with
        | (rest, st) => (passEmits W table targets ++ rest, st)

/-- The whole `__main__` data flow after CLI parsing, in source order:
build target/spoof network lists (taken as inputs), exclude targets from
the spoof pool, construct the MAC ranges from their option strings,
build the spoof table, then run the scheduling loop.  The first
component is the sequence of transport calls made. -/
def mainRun (W fuel : Nat) (targetNets spoofNets : List Net)
    (macStrs : List (List Char)) (count : PyNum) (seconds : Option Int)
    (rng : Nat → Nat) (loopFuel : Nat) :
    List (Nat × Nat × Nat) × Option RunErr :=
  match IPNetworks.addresses_exclude W fuel spoofNets targetNets with
  | none => ([], some RunErr.fuelOut)
  | some spoofs1 =>
    match parseAll macStrs with
    | .error e => ([], some (RunErr.parse e))
    | .ok macs =>
      match effCount count (IPNetworks.len W spoofs1) with
      | .error _ => ([], some RunErr.typeErr)
      | .ok eff =>
        match buildGo W fuel rng 0 eff spoofs1 [] macs with
        | none => ([], some RunErr.valueErr)
        | some (_, table) => schedEmitGo W table targetNets seconds loopFuel

/-- C1: for every address space `S` and collection `O`, whenever
`S.addresses_exclude(O)` completes, no member of the result is a subnet
of, or equal to, any member of `O` — the loop can only exit when
`subnets_of(others)` is false. -/
theorem c1_exclude_no_subnet (W fuel : Nat) (S O r : List Net)
    (h : IPNetworks.addresses_exclude W fuel S O = some r) :
    ∀ s ∈ r, ∀ o ∈ O, subnet_of W s o = false := by
  induction fuel generalizing S with
  | zero => simp [IPNetworks.addresses_exclude] at h
  | succ fuel ih =>
    rw [IPNetworks.addresses_exclude] at h
    by_cases hc : IPNetworks.subnets_of W S O = true
    · rw [if_pos hc] at h
      cases hp : outerPassGo W fuel 0 S O with
      | none => rw [hp] at h; cases h
      | some S1 => rw [hp] at h; exact ih S1 h
    · rw [if_neg hc] at h
      cases h
      intro s hs o ho
      by_contra hso
      apply hc
      simp only [IPNetworks.subnets_of, List.any_eq_true]
      exact ⟨s, hs, o, ho, by revert hso; cases subnet_of W s o <;> simp⟩

/-- Witness for C1 at a concrete input that exercises both branches of
the scan (a removal and a split). -/
theorem c1_exclude_no_subnet_witness :
    IPNetworks.addresses_exclude 32 10 [⟨28, 16⟩, ⟨30, 16⟩] [⟨30, 16⟩]
      = some [⟨29, 24⟩, ⟨30, 20⟩]
    ∧ ∀ s ∈ [(⟨29, 24⟩ : Net), ⟨30, 20⟩], ∀ o ∈ [(⟨30, 16⟩ : Net)],
        subnet_of 32 s o = false := by
  refine ⟨by decide, ?_⟩
  exact c1_exclude_no_subnet 32 10 [⟨28, 16⟩, ⟨30, 16⟩] [⟨30, 16⟩]
    [⟨29, 24⟩, ⟨30, 20⟩] (by decide)

/-- Unfolding of the boolean `subnet_of`. -/
theorem subnet_of_iff (W : Nat) (a b : Net) :
    subnet_of W a b = true ↔ b.addr ≤ a.addr ∧ Net.bcast W a ≤ Net.bcast W b := by
  simp [subnet_of]

theorem Net.size_pos (W : Nat) (n : Net) : 0 < Net.size W n :=
  Nat.pos_pow_of_pos _ (by omega)

/-- A strict subnet forces the prefix of the enclosing network below the width. -/
theorem strict_subnet_p_lt (W : Nat) (s o : Net)
    (hs : Net.valid W s) (ho : Net.valid W o)
    (hsub : subnet_of W o s = true) (hne : s ≠ o) : s.p < W := by
  rcases (subnet_of_iff W o s).mp hsub with ⟨h1, h2⟩
  by_contra hlt
  push_neg at hlt
  have hpW : s.p = W := le_antisymm hs.1 hlt
  have hszs : Net.size W s = 1 := by simp [Net.size, hpW]
  have hszo : 0 < Net.size W o := Net.size_pos W o
  have hbs : Net.bcast W s = s.addr := by simp [Net.bcast, hszs]
  have hbo : Net.bcast W o = o.addr + Net.size W o - 1 := rfl
  have haddr : o.addr = s.addr := by omega
  have hszo1 : Net.size W o = 1 := by omega
  have hop : W ≤ o.p := by
    by_contra hop
    push_neg at hop
    have : 1 < 2 ^ (W - o.p) := Nat.one_lt_two_pow_iff.mpr (by omega)
    have : Net.size W o = 2 ^ (W - o.p) := rfl
    omega
  have hopW : o.p = W := le_antisymm ho.1 hop
  apply hne
  cases s; cases o
  simp only [Net.mk.injEq]
  simp only at hpW hopW haddr
  omega

/-- For a positive `m` dividing both `a` and `M`, `a < M` leaves room for
one more block of `m`. -/
theorem aligned_add_size_le (m a M : Nat) (_hm : 0 < m)
    (ha : m ∣ a) (hM : m ∣ M) (h : a < M) : a + m ≤ M := by
  obtain ⟨k, hk⟩ := ha
  obtain ⟨j, hj⟩ := hM
  subst hk hj
  have hkj : k < j := Nat.lt_of_mul_lt_mul_left h
  calc m * k + m = m * (k + 1) := by ring
    _ ≤ m * j := Nat.mul_le_mul_left m hkj
    _ = m * j := rfl

theorem two_pow_split (W p : Nat) (h : p < W) :
    2 ^ (W - p) = 2 ^ (W - (p + 1)) + 2 ^ (W - (p + 1)) := by
  have hW : W - p = (W - (p + 1)) + 1 := by omega
  rw [hW, pow_succ]
  ring

/-- The low half of a split network is valid. -/
theorem half_low_valid (W : Nat) (s : Net) (hs : Net.valid W s) (hp : s.p < W) :
    Net.valid W ⟨s.p + 1, s.addr⟩ := by
  unfold Net.valid
  dsimp only
  refine ⟨by omega, hs.2.1, ?_⟩
  exact dvd_trans (pow_dvd_pow 2 (by omega)) hs.2.2

/-- The high half of a split network is valid. -/
theorem half_high_valid (W : Nat) (s : Net) (hs : Net.valid W s) (hp : s.p < W) :
    Net.valid W ⟨s.p + 1, s.addr + 2 ^ (W - (s.p + 1))⟩ := by
  have hsplit := two_pow_split W s.p hp
  have hroom : s.addr + 2 ^ (W - s.p) ≤ 2 ^ W :=
    aligned_add_size_le _ _ _ (Net.size_pos W s) hs.2.2
      (pow_dvd_pow 2 (Nat.sub_le W s.p)) hs.2.1
  have hpos : 0 < 2 ^ (W - (s.p + 1)) := Nat.pos_pow_of_pos _ (by omega)
  unfold Net.valid
  dsimp only
  refine ⟨by omega, by omega, ?_⟩
  exact dvd_add (dvd_trans (pow_dvd_pow 2 (by omega)) hs.2.2) dvd_rfl

/-- Addresses of the low half are addresses of the whole. -/
theorem half_low_covers (W : Nat) (s : Net) (hp : s.p < W) :
    ∀ x, Net.covers W ⟨s.p + 1, s.addr⟩ x → Net.covers W s x := by
  intro x hx
  have hsplit := two_pow_split W s.p hp
  rcases hx with ⟨h1, h2⟩
  simp only [Net.size] at h2 ⊢
  exact ⟨h1, by simp only [Net.covers, Net.size] at *; omega⟩

/-- Addresses of the high half are addresses of the whole. -/
theorem half_high_covers (W : Nat) (s : Net) (hp : s.p < W) :
    ∀ x, Net.covers W ⟨s.p + 1, s.addr + 2 ^ (W - (s.p + 1))⟩ x → Net.covers W s x := by
  intro x hx
  have hsplit := two_pow_split W s.p hp
  rcases hx with ⟨h1, h2⟩
  simp only [Net.covers, Net.size] at *
  omega

/-- Soundness of the `address_exclude` walk: every yielded piece is a
valid network entirely contained in `s`. -/
theorem addrExclGo_sound (W : Nat) :
    ∀ fuel s o l, Net.valid W s → Net.valid W o → subnet_of W o s = true →
      addrExclGo W fuel s o = some l →
      ∀ t ∈ l, Net.valid W t ∧ ∀ x, Net.covers W t x → Net.covers W s x := by
  intro fuel
  induction fuel with
  | zero => intro s o l _ _ _ h; cases h
  | succ fuel ih =>
    intro s o l hs ho hsub h
    rw [addrExclGo] at h
    by_cases heq : s = o
    · rw [if_pos heq] at h
      cases h
      intro t ht
      cases ht
    · rw [if_neg heq] at h
      have hp : s.p < W := strict_subnet_p_lt W s o hs ho hsub heq
      by_cases h1 : subnet_of W o ⟨s.p + 1, s.addr⟩ = true
      · rw [if_pos h1] at h
        rcases Option.map_eq_some'.mp h with ⟨l', hrec, rfl⟩
        intro t ht
        rcases List.mem_cons.mp ht with rfl | htl
        · exact ⟨half_high_valid W s hs hp, half_high_covers W s hp⟩
        · have := ih ⟨s.p + 1, s.addr⟩ o l' (half_low_valid W s hs hp) ho h1 hrec t htl
          exact ⟨this.1, fun x hx => half_low_covers W s hp x (this.2 x hx)⟩
      · rw [if_neg h1] at h
        by_cases h2 : subnet_of W o ⟨s.p + 1, s.addr + 2 ^ (W - (s.p + 1))⟩ = true
        · rw [if_pos h2] at h
          rcases Option.map_eq_some'.mp h with ⟨l', hrec, rfl⟩
          intro t ht
          rcases List.mem_cons.mp ht with rfl | htl
          · exact ⟨half_low_valid W s hs hp, half_low_covers W s hp⟩
          · have := ih ⟨s.p + 1, s.addr + 2 ^ (W - (s.p + 1))⟩ o l'
              (half_high_valid W s hs hp) ho h2 hrec t htl
            exact ⟨this.1, fun x hx => half_high_covers W s hp x (this.2 x hx)⟩
        · rw [if_neg h2] at h
          cases h

/-- Helper `removeFirst` only ever erases. -/
theorem removeFirst_eq (l l' : List Net) (x : Net)
    (h : removeFirst l x = some l') : l' = l.erase x := by
  unfold removeFirst at h
  by_cases hx : x ∈ l
  · rw [if_pos hx] at h; cases h; rfl
  · rw [if_neg hx] at h; cases h

/-- Everything surviving the inner `for o in others` scan was already in
`self` or is a valid network contained in the processed member `s`. -/
theorem innerLoop_sound (W : Nat) (s : Net) (hs : Net.valid W s) :
    ∀ os self self', (∀ o ∈ os, Net.valid W o) →
      innerLoop W s os self = some self' →
      ∀ n ∈ self', n ∈ self ∨
        (Net.valid W n ∧ ∀ x, Net.covers W n x → Net.covers W s x) := by
  intro os
  induction os with
  | nil =>
    intro self self' _ h n hn
    cases h
    exact Or.inl hn
  | cons o os ih =>
    intro self self' hov h n hn
    have hov' : ∀ o' ∈ os, Net.valid W o' := fun o' ho' => hov o' (List.mem_cons_of_mem o ho')
    have hoo : Net.valid W o := hov o (List.mem_cons_self o os)
    rw [innerLoop] at h
    by_cases h1 : subnet_of W o s = true
    · rw [if_pos h1] at h
      cases hrm : removeFirst self s with
      | none => rw [hrm] at h; cases h
      | some self1 =>
        rw [hrm] at h
        cases hax : address_exclude W s o with
        | none => rw [hax] at h; cases h
        | some pieces =>
          rw [hax] at h
          have hps : ∀ t ∈ pieces, Net.valid W t ∧
              ∀ x, Net.covers W t x → Net.covers W s x := by
            unfold address_exclude at hax
            rw [if_pos h1] at hax
            exact addrExclGo_sound W (W + 1) s o pieces hs hoo h1 hax
          have := ih (self1 ++ pieces) self' hov' h n hn
          rcases this with hmem | hgood
          · rcases List.mem_append.mp hmem with hm1 | hm2
            · left
              rw [removeFirst_eq self self1 s hrm] at hm1
              exact List.mem_of_mem_erase hm1
            · exact Or.inr (hps n hm2)
          · exact Or.inr hgood
    · rw [if_neg h1] at h
      by_cases h2 : subnet_of W s o = true
      · rw [if_pos h2] at h
        cases hrm : removeFirst self s with
        | none => rw [hrm] at h; cases h
        | some self1 =>
          rw [hrm] at h
          have := ih self1 self' hov' h n hn
          rcases this with hmem | hgood
          · left
            rw [removeFirst_eq self self1 s hrm] at hmem
            exact List.mem_of_mem_erase hmem
          · exact Or.inr hgood
      · rw [if_neg h2] at h
        exact ih self self' hov' h n hn

theorem outerPassGo_inv (W : Nat) (S0 others : List Net)
    (hot : ∀ o ∈ others, Net.valid W o) :
    ∀ fuel i self self', InvQ W S0 self →
      outerPassGo W fuel i self others = some self' → InvQ W S0 self' := by
  intro fuel
  induction fuel with
  | zero => intro i self self' _ h; cases h
  | succ fuel ih =>
    intro i self self' hq h
    rw [outerPassGo] at h
    by_cases hi : i < self.length
    · rw [dif_pos hi] at h
      cases hil : innerLoop W self[i] others self with
      | none => rw [hil] at h; cases h
      | some self1 =>
        rw [hil] at h
        have hsel : self[i] ∈ self := List.getElem_mem hi
        have hqs := hq self[i] hsel
        have hq1 : InvQ W S0 self1 := by
          intro n hn
          rcases innerLoop_sound W self[i] hqs.1 others self self1 hot hil n hn with
            hmem | hgood
          · exact hq n hmem
          · exact ⟨hgood.1, fun x hx => hqs.2 x (hgood.2 x hx)⟩
        exact ih (i + 1) self1 self' hq1 h
    · rw [dif_neg hi] at h
      cases h
      exact hq

theorem addresses_exclude_inv (W : Nat) (S0 others : List Net)
    (hot : ∀ o ∈ others, Net.valid W o) :
    ∀ fuel self self', InvQ W S0 self →
      IPNetworks.addresses_exclude W fuel self others = some self' →
      InvQ W S0 self' := by
  intro fuel
  induction fuel with
  | zero => intro self self' _ h; cases h
  | succ fuel ih =>
    intro self self' hq h
    rw [IPNetworks.addresses_exclude] at h
    by_cases hc : IPNetworks.subnets_of W self others = true
    · rw [if_pos hc] at h
      cases hp : outerPassGo W fuel 0 self others with
      | none => rw [hp] at h; cases h
      | some self1 =>
        rw [hp] at h
        exact ih self1 self' (outerPassGo_inv W S0 others hot fuel 0 self self1 hq hp) h
    · rw [if_neg hc] at h
      cases h
      exact hq

/-- C10: exclusion never introduces addresses — for valid inputs, every
address covered by the result of a completed `addresses_exclude` was
covered by the original list. -/
theorem c10_exclude_no_new_addresses (W fuel : Nat) (S O r : List Net)
    (hS : ∀ n ∈ S, Net.valid W n) (hO : ∀ o ∈ O, Net.valid W o)
    (h : IPNetworks.addresses_exclude W fuel S O = some r) :
    ∀ x, coveredBy W r x → coveredBy W S x := by
  have hq : InvQ W S S := fun n hn => ⟨hS n hn, fun x hx => ⟨n, hn, hx⟩⟩
  have hr := addresses_exclude_inv W S O hO fuel S r hq h
  intro x hx
  rcases hx with ⟨n, hn, hnx⟩
  exact (hr n hn).2 x hnx

/-- Witness for C10 at a concrete completed exclusion. -/
theorem c10_exclude_no_new_addresses_witness :
    coveredBy 32 [(⟨28, 16⟩ : Net), ⟨30, 16⟩] 24 :=
  c10_exclude_no_new_addresses 32 10 [⟨28, 16⟩, ⟨30, 16⟩] [⟨30, 16⟩]
    [⟨29, 24⟩, ⟨30, 20⟩] (by decide) (by decide) (by decide) 24 (by decide)

/-- The MAC walk lands in the member whose cumulative-length window the
offset falls into, and returns the base plus the remaining offset. -/
theorem macRand_characterization :
    ∀ (rs : List MACRange) (off : Nat), off < MACRanges.len rs →
      ∃ k, ∃ h : k < rs.length, ∃ rem,
        rem < MACRange.length rs[k] ∧
        off = MACRanges.len (rs.take k) + rem ∧
        MACRanges.rand rs off = some (rs[k].mac + rem) := by
  intro rs
  induction rs with
  | nil => intro off hoff; simp [MACRanges.len] at hoff
  | cons r rs ih =>
    intro off hoff
    by_cases hle : MACRange.length r ≤ off
    · have hlt : off - MACRange.length r < MACRanges.len rs := by
        simp only [MACRanges.len, List.map_cons, List.sum_cons] at hoff
        simp only [MACRanges.len]
        omega
      obtain ⟨k, hk, rem, hrem, hsum, hval⟩ := ih (off - MACRange.length r) hlt
      refine ⟨k + 1, by simpa using Nat.succ_lt_succ hk, rem, ?_, ?_, ?_⟩
      · simpa using hrem
      · simp only [List.take_succ_cons, MACRanges.len, List.map_cons, List.sum_cons]
        simp only [MACRanges.len] at hsum
        omega
      · rw [MACRanges.rand, if_pos hle]
        simpa using hval
    · push_neg at hle
      refine ⟨0, by simp, off, by simpa using hle, by simp [MACRanges.len], ?_⟩
      rw [MACRanges.rand, if_neg (by omega)]
      simp

/-- The IP walk: same statement for `IPNetworks.rand` with
`num_addresses` as the weight and `network_address + offset` as result. -/
theorem ipRand_characterization (W : Nat) :
    ∀ (ns : List Net) (off : Nat), off < IPNetworks.len W ns →
      ∃ k, ∃ h : k < ns.length, ∃ rem,
        rem < Net.size W ns[k] ∧
        off = IPNetworks.len W (ns.take k) + rem ∧
        IPNetworks.rand W ns off = some (ns[k].addr + rem) := by
  intro ns
  induction ns with
  | nil => intro off hoff; simp [IPNetworks.len] at hoff
  | cons n ns ih =>
    intro off hoff
    by_cases hle : Net.size W n ≤ off
    · have hlt : off - Net.size W n < IPNetworks.len W ns := by
        simp only [IPNetworks.len, List.map_cons, List.sum_cons] at hoff
        simp only [IPNetworks.len]
        omega
      obtain ⟨k, hk, rem, hrem, hsum, hval⟩ := ih (off - Net.size W n) hlt
      refine ⟨k + 1, by simpa using Nat.succ_lt_succ hk, rem, ?_, ?_, ?_⟩
      · simpa using hrem
      · simp only [List.take_succ_cons, IPNetworks.len, List.map_cons, List.sum_cons]
        simp only [IPNetworks.len] at hsum
        omega
      · rw [IPNetworks.rand, if_pos hle]
        simpa using hval
    · push_neg at hle
      refine ⟨0, by simp, off, by simpa using hle, by simp [IPNetworks.len], ?_⟩
      rw [IPNetworks.rand, if_neg (by omega)]
      simp

/-- C2: for a uniformly drawn offset below the total length, both
samplers walk the members in order subtracting the weight of each member and
return the base of the landed member plus the remaining offset, so the result
is always an element of some member, weighted by member size. -/
theorem c2_sample_weighted (W : Nat) (rs : List MACRange) (ns : List Net)
    (offM offN : Nat)
    (hM : offM < MACRanges.len rs) (hN : offN < IPNetworks.len W ns) :
    (∃ k, ∃ h : k < rs.length, ∃ rem,
        rem < MACRange.length rs[k] ∧
        offM = MACRanges.len (rs.take k) + rem ∧
        MACRanges.rand rs offM = some (rs[k].mac + rem))
    ∧ (∃ k, ∃ h : k < ns.length, ∃ rem,
        rem < Net.size W ns[k] ∧
        offN = IPNetworks.len W (ns.take k) + rem ∧
        IPNetworks.rand W ns offN = some (ns[k].addr + rem)) :=
  ⟨macRand_characterization rs offM hM, ipRand_characterization W ns offN hN⟩

/-- Witness for C2 at concrete two-member range sets whose offsets land
in the second member. -/
theorem c2_sample_weighted_witness :
    (∃ k, ∃ h : k < ([(⟨47, 0⟩ : MACRange), ⟨48, 100⟩]).length, ∃ rem,
        rem < MACRange.length ([(⟨47, 0⟩ : MACRange), ⟨48, 100⟩])[k] ∧
        2 = MACRanges.len (([(⟨47, 0⟩ : MACRange), ⟨48, 100⟩]).take k) + rem ∧
        MACRanges.rand [(⟨47, 0⟩ : MACRange), ⟨48, 100⟩] 2
          = some (([(⟨47, 0⟩ : MACRange), ⟨48, 100⟩])[k].mac + rem))
    ∧ (∃ k, ∃ h : k < ([(⟨31, 8⟩ : Net), ⟨32, 40⟩]).length, ∃ rem,
        rem < Net.size 32 ([(⟨31, 8⟩ : Net), ⟨32, 40⟩])[k] ∧
        2 = IPNetworks.len 32 (([(⟨31, 8⟩ : Net), ⟨32, 40⟩]).take k) + rem ∧
        IPNetworks.rand 32 [(⟨31, 8⟩ : Net), ⟨32, 40⟩] 2
          = some (([(⟨31, 8⟩ : Net), ⟨32, 40⟩])[k].addr + rem)) :=
  c2_sample_weighted 32 [⟨47, 0⟩, ⟨48, 100⟩] [⟨31, 8⟩, ⟨32, 40⟩] 2 2
    (by decide) (by decide)

/-- C3 (code bug): `--count` values arrive as floats, and
`range(min(count, pool))` hands `range` a float — a `TypeError` —
whenever `count ≤ pool`, integral or not; the claimed
`floor(min(count, pool))` flooring never happens.  Only the `int`
default (or a pool strictly smaller than the count) avoids the crash. -/
theorem c3_count_float_type_error :
    effCount (PyNum.float (mkRat 5 2)) 3 = Except.error ()
    ∧ effCount (PyNum.float (mkRat 10 1)) 16 = Except.error ()
    ∧ effCount (PyNum.int 10) 16 = Except.ok 10
    ∧ effCount (PyNum.float (mkRat 5 2)) 2 = Except.ok 2 := by
  refine ⟨?_, ?_, ?_, ?_⟩ <;> decide

/-- C4 (code bug): excluding a drawn `/32` from the pool is a no-op
unless some member IS that `/32` (`while self.subnets_of(others)` never
fires), so the same address can be drawn again and target-covered
addresses are never removed.  Concretely: pool `/30 at 0`, target
`/31 at 0`, default count 10 (effective 4), random stream all zeros —
the initial exclusion changes nothing, the final table has 1 entry
instead of 4, and its key 0 lies inside the target network. -/
theorem c4_removal_noop :
    IPNetworks.addresses_exclude 32 10 [⟨30, 0⟩] [⟨31, 0⟩] = some [⟨30, 0⟩]
    ∧ effCount (PyNum.int 10) (IPNetworks.len 32 [⟨30, 0⟩]) = Except.ok 4
    ∧ buildGo 32 10 (fun _ => 0) 0 4 [⟨30, 0⟩] [] [⟨48, 5⟩]
        = some ([⟨30, 0⟩], [(0, 5)])
    ∧ [((0 : Nat), (5 : Nat))].length ≠ 4
    ∧ Net.covers 32 ⟨31, 0⟩ 0 := by
  refine ⟨by decide, by decide, by decide, by decide, by decide⟩

theorem hosts_nodup (W : Nat) (n : Net) : (hosts W n).Nodup := by
  unfold hosts
  by_cases h1 : n.p = W
  · simp [h1]
  · rw [if_neg h1]
    by_cases h2 : n.p + 1 = W
    · simp [h2]
    · rw [if_neg h2]
      by_cases h3 : W = 32
      · rw [if_pos h3]
        exact List.nodup_range' _ _
      · rw [if_neg h3]
        exact List.nodup_range' _ _

/-- Membership in the triple enumeration. -/
theorem tripleList_mem (W : Nat) (table : List (Nat × Nat)) (targets : List Net)
    (am : Nat × Nat) (t : Net) (h : Nat) :
    (am, t, h) ∈ tripleList W table targets ↔
      am ∈ table ∧ t ∈ targets ∧ h ∈ hosts W t := by
  simp only [tripleList, List.mem_flatMap, List.mem_map, Prod.mk.injEq]
  constructor
  · rintro ⟨am', ham', t', ht', h', hh', rfl, rfl, rfl⟩
    exact ⟨ham', ht', hh'⟩
  · rintro ⟨ham, ht, hh⟩
    exact ⟨am, ham, t, ht, h, hh, rfl, rfl, rfl⟩

/-- First component of any element of the inner flatMap. -/
theorem tripleList_first (W : Nat) (targets : List Net) (am : Nat × Nat)
    (x : (Nat × Nat) × Net × Nat)
    (hx : x ∈ targets.flatMap fun t => (hosts W t).map fun h => (am, t, h)) :
    x.1 = am := by
  simp only [List.mem_flatMap, List.mem_map] at hx
  rcases hx with ⟨t, _, h, _, rfl⟩
  rfl

/-- The number of calls of one pass. -/
theorem passEmits_length (W : Nat) (targets : List Net) :
    ∀ table : List (Nat × Nat), (passEmits W table targets).length
      = table.length * (targets.map fun t => (hosts W t).length).sum := by
  intro table
  induction table with
  | nil => simp [passEmits]
  | cons am tab ih =>
    have hinner :
        (targets.flatMap fun t => (hosts W t).map fun h => (h, am.1, am.2)).length
          = (targets.map fun t => (hosts W t).length).sum := by
      simp [List.length_flatMap, Function.comp_def, List.length_map]
    simp only [passEmits, List.flatMap_cons, List.length_append, List.length_cons]
    simp only [passEmits] at ih
    rw [hinner, ih, Nat.succ_mul]
    exact Nat.add_comm _ _

/-- C5: one pass makes exactly one transport call per (entry, target,
host-of-that-target) triple, with table order outermost, target order in
the middle and host order innermost: the emitted calls are exactly the
projection of the nested triple enumeration, that enumeration has no
duplicates (for a duplicate-free table and target list), membership in
it is exactly the claimed product, and the number of calls is
`#entries * Σ_target #hosts`. -/
theorem c5_pass_per_triple (W : Nat) (table : List (Nat × Nat)) (targets : List Net)
    (htab : table.Nodup) (htg : targets.Nodup) :
    passEmits W table targets
        = (tripleList W table targets).map (fun x => (x.2.2, x.1.1, x.1.2))
    ∧ (tripleList W table targets).Nodup
    ∧ (∀ am t h, (am, t, h) ∈ tripleList W table targets ↔
        am ∈ table ∧ t ∈ targets ∧ h ∈ hosts W t)
    ∧ (passEmits W table targets).length
        = table.length * (targets.map fun t => (hosts W t).length).sum := by
  refine ⟨?_, ?_, fun am t h => tripleList_mem W table targets am t h, ?_⟩
  · simp only [passEmits, tripleList, List.map_flatMap, List.map_map]
    rfl
  · rw [tripleList, List.nodup_flatMap]
    constructor
    · intro am _
      rw [List.nodup_flatMap]
      constructor
      · intro t _
        exact (hosts_nodup W t).map fun h h' hhh => by
          simpa using congrArg (fun y => y.2.2) hhh
      · refine List.Pairwise.imp ?_ htg
        intro t t' htt x hx hx'
        simp only [List.mem_map] at hx hx'
        rcases hx with ⟨h, _, rfl⟩
        rcases hx' with ⟨h', _, heq⟩
        have hteq : t' = t := by simpa using congrArg (fun y => y.2.1) heq
        exact htt hteq.symm
    · refine List.Pairwise.imp ?_ htab
      intro am am' ham x hx hx'
      have h1 := tripleList_first W targets am x hx
      have h2 := tripleList_first W targets am' x hx'
      exact ham (h1 ▸ h2)
  · exact passEmits_length W targets table

/-- Witness for C5: two table entries against one IPv4 `/30` target with
two usable hosts give exactly `2 * 2 = 4` transport calls; against one
IPv6 `/126` target (three hosts — only the network address excluded),
`2 * 3 = 6` calls. -/
theorem c5_pass_per_triple_witness :
    (passEmits 32 [(100, 7), (200, 9)] [⟨30, 0⟩]
        = (tripleList 32 [(100, 7), (200, 9)] [⟨30, 0⟩]).map
            (fun x => (x.2.2, x.1.1, x.1.2))
      ∧ (tripleList 32 [(100, 7), (200, 9)] [⟨30, 0⟩]).Nodup
      ∧ (∀ am t h, (am, t, h) ∈ tripleList 32 [(100, 7), (200, 9)] [⟨30, 0⟩] ↔
          am ∈ [((100 : Nat), (7 : Nat)), (200, 9)] ∧ t ∈ [(⟨30, 0⟩ : Net)] ∧
          h ∈ hosts 32 t)
      ∧ (passEmits 32 [(100, 7), (200, 9)] [⟨30, 0⟩]).length
          = 2 * ([(⟨30, 0⟩ : Net)].map fun t => (hosts 32 t).length).sum)
    ∧ (passEmits 32 [(100, 7), (200, 9)] [⟨30, 0⟩]).length = 4
    ∧ (passEmits 128 [(100, 7), (200, 9)] [⟨126, 0⟩]).length
        = 2 * ([(⟨126, 0⟩ : Net)].map fun t => (hosts 128 t).length).sum
    ∧ (passEmits 128 [(100, 7), (200, 9)] [⟨126, 0⟩]).length = 6 := by
  have h1 : ([(100, 7), (200, 9)] : List (Nat × Nat)).Nodup := by decide
  have h2 : ([⟨30, 0⟩] : List Net).Nodup := by decide
  have h3 : ([⟨126, 0⟩] : List Net).Nodup := by decide
  refine ⟨?_, ?_, ?_, ?_⟩
  · have := c5_pass_per_triple 32 [(100, 7), (200, 9)] [⟨30, 0⟩] h1 h2
    simpa using this
  · decide
  · have := c5_pass_per_triple 128 [(100, 7), (200, 9)] [⟨126, 0⟩] h1 h3
    simpa using this.2.2.2
  · decide

/-- C6 counterexample: a configured repeat interval of `0` seconds does
not repeat — `if args.seconds:` treats `0` as unset, so the scheduler
performs exactly one pass and terminates, where the claim requires
blocking and repeating indefinitely whenever an interval is
configured. -/
theorem c6_zero_interval_counterexample :
    schedTrace (some 0) 5 = ([Ev.pass], SchedStatus.done)
    ∧ (schedTrace (some 0) 5).2 ≠ SchedStatus.running
    ∧ (schedTrace (some 0) 5).1.count Ev.pass = 1 := by
  decide

/-- C6 (amended): with no interval configured — or an interval of `0`,
which Python truthiness treats the same — the scheduler performs exactly
one pass and terminates without sleeping; with a positive interval every
pass is followed by a sleep of that length and the loop never leaves its
running cycle; a negative interval aborts in the first sleep. -/
theorem c6_schedule_amended (fuel : Nat) (s : Int) :
    (1 ≤ fuel → schedTrace none fuel = ([Ev.pass], SchedStatus.done))
    ∧ (1 ≤ fuel → schedTrace (some 0) fuel = ([Ev.pass], SchedStatus.done))
    ∧ (0 < s → schedTrace (some s) fuel
        = ((List.replicate fuel [Ev.pass, Ev.sleepFor s]).flatten,
            SchedStatus.running))
    ∧ (1 ≤ fuel → s < 0 → schedTrace (some s) fuel
        = ([Ev.pass], SchedStatus.failed)) := by
  refine ⟨?_, ?_, ?_, ?_⟩
  · intro hf
    cases fuel with
    | zero => omega
    | succ fuel => rfl
  · intro hf
    cases fuel with
    | zero => omega
    | succ fuel => simp [schedTrace]
  · intro hs
    induction fuel with
    | zero => simp [schedTrace]
    | succ fuel ih =>
      rw [schedTrace]
      simp only [List.replicate_succ, List.flatten_cons]
      rw [if_neg (by omega), if_neg (by omega), ih]
      simp
  · intro hf hs
    cases fuel with
    | zero => omega
    | succ fuel =>
      rw [schedTrace]
      rw [if_neg (by omega), if_pos hs]

/-- Witness for C6 at fuel 3: a positive interval repeats with a sleep
after every pass; an absent interval gives a single pass. -/
theorem c6_schedule_amended_witness :
    schedTrace (some 2) 3
        = ((List.replicate 3 [Ev.pass, Ev.sleepFor 2]).flatten,
            SchedStatus.running)
    ∧ schedTrace none 3 = ([Ev.pass], SchedStatus.done) :=
  ⟨(c6_schedule_amended 3 2).2.2.1 (by decide),
   (c6_schedule_amended 3 2).1 (by decide)⟩

theorem splitOnPred_all_keep (p : Char → Bool) :
    ∀ l : List Char, (∀ c ∈ l, p c = false) → splitOnPred p l = [l] := by
  intro l
  induction l with
  | nil => intro _; rfl
  | cons c cs ih =>
    intro hl
    have hc : p c = false := hl c (List.mem_cons_self c cs)
    have hcs := ih fun c' hc' => hl c' (List.mem_cons_of_mem c hc')
    rw [splitOnPred, if_neg (by simp [hc]), hcs]

theorem splitOnPred_append_sep (p : Char → Bool) (d : Char) (hd : p d = true) :
    ∀ (xs rest : List Char), (∀ c ∈ xs, p c = false) →
      splitOnPred p (xs ++ d :: rest) = xs :: splitOnPred p rest := by
  intro xs
  induction xs with
  | nil =>
    intro rest _
    simp only [List.nil_append]
    rw [splitOnPred, if_pos hd]
  | cons c cs ih =>
    intro rest hl
    have hc : p c = false := hl c (List.mem_cons_self c cs)
    have hcs := ih rest fun c' hc' => hl c' (List.mem_cons_of_mem c hc')
    simp only [List.cons_append]
    rw [splitOnPred, if_neg (by simp [hc]), hcs]

theorem splitOnPred_joinColon (p : Char → Bool) (hd : p ':' = true) :
    ∀ parts : List (List Char), parts ≠ [] →
      (∀ pt ∈ parts, ∀ c ∈ pt, p c = false) →
      splitOnPred p (MAC.joinColon parts) = parts := by
  intro parts
  induction parts with
  | nil => intro h; exact absurd rfl h
  | cons pt pts ih =>
    intro _ hall
    cases pts with
    | nil =>
      rw [MAC.joinColon]
      exact splitOnPred_all_keep p pt (hall pt (List.mem_cons_self pt []))
    | cons pt2 pts2 =>
      rw [MAC.joinColon]
      rw [splitOnPred_append_sep p ':' hd pt _
        (hall pt (List.mem_cons_self pt (pt2 :: pts2)))]
      rw [ih (by simp) fun q hq c hc =>
        hall q (List.mem_cons_of_mem pt hq) c hc]
      all_goals simp

theorem hexDigitChar_spec :
    ∀ n, n < 16 →
      isHexChar (MAC.hexDigitChar n) = true
      ∧ isLowerHex (MAC.hexDigitChar n) = true
      ∧ hexDigitVal (MAC.hexDigitChar n) = n
      ∧ (MAC.hexDigitChar n).toNat ≠ 58 := by
  intro n hn
  interval_cases n <;> exact ⟨rfl, rfl, rfl, by decide⟩

theorem toHexGo_spec :
    ∀ fuel n, n ≤ fuel →
      MAC.toHexGo fuel n ≠ []
      ∧ (∀ c ∈ MAC.toHexGo fuel n, isHexChar c = true ∧ isLowerHex c = true
          ∧ c.toNat ≠ 58)
      ∧ hexVal (MAC.toHexGo fuel n) = n := by
  intro fuel
  induction fuel with
  | zero =>
    intro n hn
    have hn0 : n = 0 := by omega
    subst hn0
    obtain ⟨h1, h2, h3, h4⟩ := hexDigitChar_spec 0 (by omega)
    refine ⟨by simp [MAC.toHexGo], ?_, ?_⟩
    · intro c hc
      simp only [MAC.toHexGo, List.mem_singleton] at hc
      subst hc
      exact ⟨h1, h2, h4⟩
    · simp [MAC.toHexGo, hexVal, h3]
  | succ fuel ih =>
    intro n hn
    by_cases h : n < 16
    · rw [MAC.toHexGo, if_pos h]
      obtain ⟨h1, h2, h3, h4⟩ := hexDigitChar_spec n h
      refine ⟨by simp, ?_, ?_⟩
      · intro c hc
        rw [List.mem_singleton] at hc
        subst hc
        exact ⟨h1, h2, h4⟩
      · simp [hexVal, h3]
    · rw [MAC.toHexGo, if_neg h]
      have hdiv : n / 16 ≤ fuel := by
        have : n / 16 < n := Nat.div_lt_self (by omega) (by omega)
        omega
      obtain ⟨ih1, ih2, ih3⟩ := ih (n / 16) hdiv
      have hmod : n % 16 < 16 := Nat.mod_lt n (by omega)
      obtain ⟨g1, g2, g3, g4⟩ := hexDigitChar_spec (n % 16) hmod
      refine ⟨by simp, ?_, ?_⟩
      · intro c hc
        rcases List.mem_append.mp hc with hc1 | hc2
        · exact ih2 c hc1
        · rw [List.mem_singleton] at hc2
          subst hc2
          exact ⟨g1, g2, g4⟩
      · unfold hexVal
        rw [List.foldl_append]
        simp only [List.foldl_cons, List.foldl_nil]
        unfold hexVal at ih3
        rw [ih3, g3]
        omega

theorem toHexChars_spec :
    ∀ n, MAC.toHexChars n ≠ []
      ∧ (∀ c ∈ MAC.toHexChars n, isHexChar c = true ∧ isLowerHex c = true
          ∧ c.toNat ≠ 58)
      ∧ hexVal (MAC.toHexChars n) = n :=
  fun n => toHexGo_spec n n le_rfl

theorem toBytesBE_lt (k : Nat) : ∀ m, ∀ b ∈ toBytesBE k m, b < 256 := by
  induction k with
  | zero => intro m b hb; cases hb
  | succ k ih =>
    intro m b hb
    rw [toBytesBE] at hb
    rcases List.mem_append.mp hb with h1 | h2
    · exact ih (m / 256) b h1
    · rw [List.mem_singleton] at h2
      subst h2
      exact Nat.mod_lt _ (by omega)

theorem fromBytesBE_append_one (l : List Nat) (b : Nat) :
    fromBytesBE (l ++ [b]) = 256 * fromBytesBE l + b := by
  unfold fromBytesBE
  rw [List.foldl_append]
  rfl

theorem mod_mul_decomp (m K : Nat) (hK : 0 < K) :
    m % (256 * K) = 256 * (m / 256 % K) + m % 256 := by
  have hqK : m / 256 % K < K := Nat.mod_lt _ hK
  have hr : m % 256 < 256 := Nat.mod_lt _ (by omega)
  have hlt : 256 * (m / 256 % K) + m % 256 < 256 * K := by
    calc 256 * (m / 256 % K) + m % 256 < 256 * (m / 256 % K) + 256 := by omega
      _ = 256 * (m / 256 % K + 1) := by ring
      _ ≤ 256 * K := Nat.mul_le_mul_left 256 hqK
  have hexp : m = (256 * (m / 256 % K) + m % 256) + (m / 256 / K) * (256 * K) := by
    have h1 : 256 * (m / 256) + m % 256 = m := Nat.div_add_mod m 256
    have h2 : K * (m / 256 / K) + m / 256 % K = m / 256 := Nat.div_add_mod (m / 256) K
    calc m = 256 * (m / 256) + m % 256 := h1.symm
      _ = 256 * (K * (m / 256 / K) + m / 256 % K) + m % 256 := by rw [h2]
      _ = (256 * (m / 256 % K) + m % 256) + (m / 256 / K) * (256 * K) := by ring
  calc m % (256 * K)
      = ((256 * (m / 256 % K) + m % 256) + (m / 256 / K) * (256 * K)) % (256 * K) := by
        rw [← hexp]
    _ = (256 * (m / 256 % K) + m % 256) % (256 * K) := Nat.add_mul_mod_self_right _ _ _
    _ = 256 * (m / 256 % K) + m % 256 := Nat.mod_eq_of_lt hlt

theorem fromBytesBE_toBytesBE : ∀ (k m : Nat),
    fromBytesBE (toBytesBE k m) = m % 256 ^ k := by
  intro k
  induction k with
  | zero => intro m; simp [toBytesBE, fromBytesBE, Nat.mod_one]
  | succ k ih =>
    intro m
    rw [toBytesBE, fromBytesBE_append_one, ih]
    have h1 : 256 ^ (k + 1) = 256 * 256 ^ k := by ring
    rw [h1, mod_mul_decomp m (256 ^ k) (Nat.pos_pow_of_pos _ (by omega))]

theorem toBytesBE_length : ∀ k m, (toBytesBE k m).length = k := by
  intro k
  induction k with
  | zero => intro m; rfl
  | succ k ih =>
    intro m
    rw [toBytesBE]
    simp [ih]

/-- The rendered MAC splits back into its six rendered octet groups,
whether split on colons or on all non-hex characters. -/
theorem split_str (p : Char → Bool) (hd : p ':' = true)
    (hkeep : ∀ c, isHexChar c = true → p c = false) (m : Nat) :
    splitOnPred p (MAC.str m) = (toBytesBE 6 m).map MAC.toHexChars := by
  unfold MAC.str
  apply splitOnPred_joinColon p hd
  · have hlen : ((toBytesBE 6 m).map MAC.toHexChars).length = 6 := by
      simp [toBytesBE_length]
    intro hnil
    rw [hnil] at hlen
    simp at hlen
  · intro pt hpt c hc
    rcases List.mem_map.mp hpt with ⟨b, _, rfl⟩
    exact hkeep c ((toHexChars_spec b).2.1 c hc).1

/-- Re-reading each rendered octet group gives back the byte. -/
theorem map_hexVal_toHexChars (k m : Nat) :
    ((toBytesBE k m).map MAC.toHexChars).map hexVal = toBytesBE k m := by
  rw [List.map_map]
  have : ∀ b ∈ toBytesBE k m, (hexVal ∘ MAC.toHexChars) b = b := fun b _ =>
    (toHexChars_spec b).2.2
  rw [List.map_congr_left this]
  simp

/-- C8: parsing the rendered form of any 48-bit MAC value gives back the
value — the unpadded hex groups still re-parse correctly because
`MAC.parse` splits on every non-hex character and accepts groups of any
width. -/
theorem c8_parse_format_roundtrip (m : Nat) (hm : m < 2 ^ 48) :
    MAC.parse (MAC.str m) = some m := by
  have hsplit : splitNonHex (MAC.str m) = (toBytesBE 6 m).map MAC.toHexChars :=
    split_str _ (by decide) (fun c hc => by simp [hc]) m
  unfold MAC.parse
  rw [hsplit]
  have hall1 : ((toBytesBE 6 m).map MAC.toHexChars).all (fun pt => !pt.isEmpty) = true := by
    rw [List.all_eq_true]
    intro pt hpt
    rcases List.mem_map.mp hpt with ⟨b, _, rfl⟩
    have hne := (toHexChars_spec b).1
    cases hMt : MAC.toHexChars b with
    | nil => exact absurd hMt hne
    | cons c cs => simp [hMt]
  have hall2 : ((toBytesBE 6 m).map MAC.toHexChars).all (fun pt => hexVal pt < 256) = true := by
    rw [List.all_eq_true]
    intro pt hpt
    rcases List.mem_map.mp hpt with ⟨b, hb, rfl⟩
    rw [(toHexChars_spec b).2.2]
    simpa using toBytesBE_lt 6 m b hb
  rw [if_pos hall1, if_pos hall2, map_hexVal_toHexChars, fromBytesBE_toBytesBE]
  have h48 : (256 : ℕ) ^ 6 = 2 ^ 48 := by norm_num
  rw [h48, Nat.mod_eq_of_lt hm]

/-- Witness for C8 at the concrete value `0x112233445566`. -/
theorem c8_parse_format_roundtrip_witness :
    MAC.parse (MAC.str 18838586676582) = some 18838586676582 :=
  c8_parse_format_roundtrip 18838586676582 (by decide)

/-- C9 counterexample: `format(part, "x")` does not zero-pad, so the
rendering of the MAC value 1 is `0:0:0:0:0:1` — its groups are single
hex digits, not the claimed two. -/
theorem c9_unpadded_counterexample :
    MAC.str 1 = ['0', ':', '0', ':', '0', ':', '0', ':', '0', ':', '1']
    ∧ ∃ g ∈ splitColon (MAC.str 1), g.length ≠ 2 := by
  decide

/-- C9 (amended): the canonical textual form is the six big-endian
octets, each rendered as its minimal lowercase hex digits (no zero
padding, so one digit for octets below 16), separated by colons. -/
theorem c9_format_amended (m : Nat) (_hm : m < 2 ^ 48) :
    splitColon (MAC.str m) = (toBytesBE 6 m).map MAC.toHexChars
    ∧ (splitColon (MAC.str m)).length = 6
    ∧ (splitColon (MAC.str m)).map hexVal = toBytesBE 6 m
    ∧ ∀ g ∈ splitColon (MAC.str m), g ≠ [] ∧ ∀ c ∈ g, isLowerHex c = true := by
  have hsplit : splitColon (MAC.str m) = (toBytesBE 6 m).map MAC.toHexChars :=
    split_str _ (by decide) (fun c hc => by
      simp only [isHexChar, Bool.or_eq_true, Bool.and_eq_true, decide_eq_true_eq] at hc
      simp only [beq_eq_false_iff_ne, ne_eq]
      omega) m
  refine ⟨hsplit, ?_, ?_, ?_⟩
  · rw [hsplit]; simp [toBytesBE_length]
  · rw [hsplit]; exact map_hexVal_toHexChars 6 m
  · rw [hsplit]
    intro g hg
    rcases List.mem_map.mp hg with ⟨b, _, rfl⟩
    exact ⟨(toHexChars_spec b).1, fun c hc => ((toHexChars_spec b).2.1 c hc).2.1⟩

/-- Witness for C9 (amended) at the value 1. -/
theorem c9_format_amended_witness :
    splitColon (MAC.str 1) = (toBytesBE 6 1).map MAC.toHexChars
    ∧ (splitColon (MAC.str 1)).length = 6
    ∧ (splitColon (MAC.str 1)).map hexVal = toBytesBE 6 1
    ∧ ∀ g ∈ splitColon (MAC.str 1), g ≠ [] ∧ ∀ c ∈ g, isLowerHex c = true :=
  c9_format_amended 1 (by decide)

theorem sep_not_hex (d : Char) (hd : isSepChar d = true) : isHexChar d = false := by
  simp only [isSepChar, Bool.or_eq_true, beq_iff_eq] at hd
  cases hx : isHexChar d
  · rfl
  · exfalso
    simp only [isHexChar, Bool.or_eq_true, Bool.and_eq_true, decide_eq_true_eq] at hx
    omega

theorem hexDigitVal_lt (c : Char) (hc : isHexChar c = true) : hexDigitVal c < 16 := by
  simp only [isHexChar, Bool.or_eq_true, Bool.and_eq_true, decide_eq_true_eq] at hc
  unfold hexDigitVal
  split
  · omega
  · split <;> omega

theorem matchHexPair_inv (l pr rest : List Char)
    (h : matchHexPair l = some (pr, rest)) :
    ∃ a b, l = a :: b :: rest ∧ pr = [a, b]
      ∧ isHexChar a = true ∧ isHexChar b = true := by
  match l with
  | [] => cases h
  | [a] => cases h
  | a :: b :: l' =>
    rw [matchHexPair] at h
    by_cases hab : (isHexChar a && isHexChar b) = true
    · rw [if_pos hab] at h
      rcases Bool.and_eq_true_iff.mp hab with ⟨ha, hb⟩
      cases h
      exact ⟨a, b, rfl, rfl, ha, hb⟩
    · rw [if_neg hab] at h
      cases h

theorem matchSep_inv (l : List Char) (d : Char) (rest : List Char)
    (h : matchSep l = some (d, rest)) :
    l = d :: rest ∧ isSepChar d = true := by
  match l with
  | [] => cases h
  | c :: l' =>
    rw [matchSep] at h
    by_cases hc : isSepChar c = true
    · rw [if_pos hc] at h
      cases h
      exact ⟨rfl, hc⟩
    · rw [if_neg hc] at h
      cases h

/-- The characters matched by the body are hex pairs joined by
separators, so splitting them on non-hex characters recovers exactly
the two-hex-digit groups. -/
theorem matchBody_split : ∀ (k : Nat) (l macChars rest : List Char),
    matchBody k l = some (macChars, rest) →
    ∀ pt ∈ splitNonHex macChars,
      ∃ a b, pt = [a, b] ∧ isHexChar a = true ∧ isHexChar b = true := by
  intro k
  induction k with
  | zero =>
    intro l macChars rest h pt hpt
    rcases matchHexPair_inv l macChars rest h with ⟨a, b, _, rfl, ha, hb⟩
    rw [splitNonHex, splitOnPred_all_keep _ _ (by
      intro c hc
      rcases List.mem_cons.mp hc with rfl | hc2
      · simp [ha]
      · rw [List.mem_singleton] at hc2
        subst hc2
        simp [hb])] at hpt
    rw [List.mem_singleton] at hpt
    subst hpt
    exact ⟨a, b, rfl, ha, hb⟩
  | succ k ih =>
    intro l macChars rest h pt hpt
    rw [matchBody] at h
    cases h1 : matchHexPair l with
    | none => rw [h1] at h; cases h
    | some v =>
      obtain ⟨pr, rest0⟩ := v
      rw [h1] at h
      dsimp only at h
      cases h2 : matchSep rest0 with
      | none => rw [h2] at h; cases h
      | some w =>
        obtain ⟨d, rest1⟩ := w
        rw [h2] at h
        dsimp only at h
        cases h3 : matchBody k rest1 with
        | none => rw [h3] at h; cases h
        | some u =>
          obtain ⟨tail, rest2⟩ := u
          rw [h3] at h
          dsimp only at h
          cases h
          rcases matchHexPair_inv l pr rest0 h1 with ⟨a, b, _, rfl, ha, hb⟩
          have hdsep := (matchSep_inv rest0 d rest1 h2).2
          have hdhex : isHexChar d = false := sep_not_hex d hdsep
          rw [splitNonHex, show ([a, b] ++ d :: tail : List Char)
              = [a, b] ++ d :: tail from rfl,
            splitOnPred_append_sep _ d (by simp [hdhex]) [a, b] tail (by
              intro c hc
              rcases List.mem_cons.mp hc with rfl | hc2
              · simp [ha]
              · rw [List.mem_singleton] at hc2
                subst hc2
                simp [hb])] at hpt
          rcases List.mem_cons.mp hpt with rfl | hpt2
          · exact ⟨a, b, rfl, ha, hb⟩
          · exact ih rest1 tail _ h3 pt hpt2

/-- Lemma: `MAC.parse` succeeds on any text matched by the body regex. -/
theorem MAC_parse_of_matchBody (k : Nat) (l macChars rest : List Char)
    (h : matchBody k l = some (macChars, rest)) :
    ∃ v, MAC.parse macChars = some v := by
  have hsp := matchBody_split k l macChars rest h
  refine ⟨fromBytesBE ((splitNonHex macChars).map hexVal), ?_⟩
  unfold MAC.parse
  rw [if_pos, if_pos]
  · rw [List.all_eq_true]
    intro pt hpt
    rcases hsp pt hpt with ⟨a, b, rfl, ha, hb⟩
    have hva := hexDigitVal_lt a ha
    have hvb := hexDigitVal_lt b hb
    simp only [hexVal, List.foldl_cons, List.foldl_nil, decide_eq_true_eq]
    omega
  · rw [List.all_eq_true]
    intro pt hpt
    rcases hsp pt hpt with ⟨a, b, rfl, _, _⟩
    simp

/-- Unpacking a successful regex match with a mask group. -/
theorem regexMatch_some_mask (l macChars ds : List Char)
    (h : regexMatch l = some (macChars, some ds)) :
    ∃ rest, matchBody 5 l = some (macChars, rest) := by
  unfold regexMatch at h
  cases hb : matchBody 5 l with
  | none => rw [hb] at h; cases h
  | some v =>
    obtain ⟨mc, rest⟩ := v
    rw [hb] at h
    dsimp only at h
    split at h
    · cases h
    · split at h
      · cases h
        exact ⟨_, rfl⟩
      · cases h
    · cases h

theorem parseAll_error_of_mem : ∀ (ss : List (List Char)) (s : List Char),
    s ∈ ss → (∃ e, MACRange.ofText s = Except.error e) →
    ∃ e', parseAll ss = Except.error e' := by
  intro ss
  induction ss with
  | nil => intro s hs; cases hs
  | cons s0 ss ih =>
    intro s hs he
    rcases List.mem_cons.mp hs with rfl | hs2
    · obtain ⟨e, he⟩ := he
      rw [parseAll, he]
      exact ⟨e, rfl⟩
    · rw [parseAll]
      cases h0 : MACRange.ofText s0 with
      | error e0 => exact ⟨e0, rfl⟩
      | ok r =>
        obtain ⟨e', he'⟩ := ih s hs2 he
        rw [he']
        exact ⟨e', rfl⟩

/-- C7 (amended): `MACRange` construction fails on any text the regex
rejects (malformed hex groups or separators — `AttributeError`), on a
missing prefix (`TypeError` from `int(None)`), and on a prefix above 48
(`ValueError` from the negative shift); it succeeds exactly on six hex
pairs with separators and an explicit prefix at most 48, storing the
masked base.  And in a whole run, any such failure happens before a
single transport call is made. -/
theorem c7_parse_amended :
    (∀ l, regexMatch l = none →
      MACRange.ofText l = Except.error ParseErr.attrError)
    ∧ (∀ l macChars, regexMatch l = some (macChars, none) →
        MACRange.ofText l = Except.error ParseErr.typeError)
    ∧ (∀ l macChars ds, regexMatch l = some (macChars, some ds) →
        48 < decVal ds → MACRange.ofText l = Except.error ParseErr.valueError)
    ∧ (∀ l macChars ds, regexMatch l = some (macChars, some ds) →
        decVal ds ≤ 48 →
        ∃ v, MAC.parse macChars = some v ∧
          MACRange.ofText l
            = Except.ok ⟨decVal ds, v / 2 ^ (48 - decVal ds) * 2 ^ (48 - decVal ds)⟩)
    ∧ (∀ W fuel targetNets spoofNets macStrs count seconds rng loopFuel,
        (∃ s ∈ macStrs, ∃ e, MACRange.ofText s = Except.error e) →
        (mainRun W fuel targetNets spoofNets macStrs count seconds rng
          loopFuel).1 = []) := by
  refine ⟨?_, ?_, ?_, ?_, ?_⟩
  · intro l h
    unfold MACRange.ofText
    rw [h]
  · intro l macChars h
    unfold MACRange.ofText
    rw [h]
  · intro l macChars ds h h48
    unfold MACRange.ofText
    rw [h]
    dsimp only
    cases hp : MAC.parse macChars with
    | none => rfl
    | some v =>
      dsimp only
      rw [if_pos h48]
  · intro l macChars ds h h48
    obtain ⟨rest, hb⟩ := regexMatch_some_mask l macChars ds h
    obtain ⟨v, hv⟩ := MAC_parse_of_matchBody 5 l macChars rest hb
    refine ⟨v, hv, ?_⟩
    unfold MACRange.ofText
    rw [h]
    dsimp only
    rw [hv]
    dsimp only
    rw [if_neg (by omega)]
  · intro W fuel targetNets spoofNets macStrs count seconds rng loopFuel hbad
    obtain ⟨s, hs, he⟩ := hbad
    unfold mainRun
    cases hx : IPNetworks.addresses_exclude W fuel spoofNets targetNets with
    | none => rfl
    | some spoofs1 =>
      obtain ⟨e', he'⟩ := parseAll_error_of_mem macStrs s hs he
      rw [he']

/-- C7 counterexample: text that is well-formed per the documented
format `AA:BB:CC:DD:EE:FF[/prefixBits]` but omits the optional prefix is
rejected (`int(None)` raises `TypeError`), so well-formedness alone does
not imply success. -/
theorem c7_missing_prefix_counterexample :
    regexMatch ("aa:bb:cc:dd:ee:ff".toList)
        = some ("aa:bb:cc:dd:ee:ff".toList, none)
    ∧ MACRange.ofText ("aa:bb:cc:dd:ee:ff".toList)
        = Except.error ParseErr.typeError := by
  refine ⟨by decide, by decide⟩

/-- Witness for C7 (amended): a fully explicit range string parses to
the masked base, a malformed string is rejected, and a run configured
with a malformed MAC string makes no transport calls. -/
theorem c7_parse_amended_witness :
    (∃ v, MAC.parse ("aa:bb:cc:dd:ee:ff".toList) = some v ∧
      MACRange.ofText ("aa:bb:cc:dd:ee:ff/40".toList)
        = Except.ok ⟨decVal ['4', '0'],
            v / 2 ^ (48 - decVal ['4', '0']) * 2 ^ (48 - decVal ['4', '0'])⟩)
    ∧ MACRange.ofText ("zz".toList) = Except.error ParseErr.attrError
    ∧ (mainRun 32 1 [] [⟨30, 0⟩] [("zz".toList)] (PyNum.int 1) none
        (fun _ => 0) 1).1 = [] := by
  refine ⟨?_, ?_, ?_⟩
  · exact c7_parse_amended.2.2.2.1 ("aa:bb:cc:dd:ee:ff/40".toList)
      ("aa:bb:cc:dd:ee:ff".toList) ['4', '0'] (by decide) (by decide)
  · exact c7_parse_amended.1 ("zz".toList) (by decide)
  · exact c7_parse_amended.2.2.2.2 32 1 [] [⟨30, 0⟩] [("zz".toList)]
      (PyNum.int 1) none (fun _ => 0) 1
      ⟨("zz".toList), by simp, ParseErr.attrError, by decide⟩

end Arpopulate
